import Mathlib

/-!
# Verification of the `cstr-enum` derive macros

A shallow embedding of `cstr-enum-derive/src/lib.rs` (the proc-macro crate of
`cstr-enum`).  Bytes are modelled as `Nat`, Rust `String` values and byte-string
literal contents as `List Nat` (byte lists), identifiers as Lean `String`.
The terminator (nul) byte is `0`.  Fallible code returns `Except DeriveError`.
The two emitted trait implementations (`as_cstr` / `from_cstr`) are modelled
semantically: the forward match dispatches on the variant tag alone, the reverse
match tries the trimmed byte-string patterns in declaration order.
-/

deriving instance DecidableEq for Except

/-- A byte (value of a Rust `u8`). -/
abbrev Byte := Nat

/-- ASCII/UTF-8 bytes of a Lean string (identifiers and messages are ASCII). -/
def strBytes (s : String) : List Byte :=
  s.data.map Char.toNat

/-- Model of `syn::Lit` restricted to what the macro inspects: a string literal
(carrying its content bytes, `s.value().as_bytes()`) or any other literal kind. -/
inductive Lit where
  | str (s : List Byte)
  | other
deriving DecidableEq

/-- Model of `syn::MetaNameValue`: a `KEY = VALUE` item inside `#[cstr(...)]`.
The path is its identifier text. -/
structure MetaNameValue where
  path : String
  lit : Lit
deriving DecidableEq

/-- Model of `syn::NestedMeta`: either a name-value meta item or anything else
(which `parse_meta` rejects with "expected named argument"). -/
inductive NestedMeta where
  | metaNV (nv : MetaNameValue)
  | otherNested
deriving DecidableEq

/-- Model of `syn::Meta`: a list `cstr(...)` of nested items, or any other
shape (rejected with "missing arguments"). -/
inductive Meta where
  | list (nested : List NestedMeta)
  | otherMeta
deriving DecidableEq

/-- Model of `syn::Attribute`: its path text and parsed meta. -/
structure Attribute where
  path : String
  meta : Meta
deriving DecidableEq

/-- Model of `syn::Fields`: unit, named (brace) or unnamed (tuple) fields,
carrying the number of fields.  `syn::Fields::Unit` equality is constructor
equality, so `named 0` (an empty `{}` block) is distinct from `unit`. -/
inductive Fields where
  | unit
  | named (n : Nat)
  | unnamed (n : Nat)
deriving DecidableEq

/-- Number of associated fields a `Fields` value carries. -/
def Fields.num_fields : Fields → Nat
  | .unit => 0
  | .named n => n
  | .unnamed n => n

/-- Model of `syn::Variant`: identifier, fields, attributes. -/
structure Variant where
  ident : String
  fields : Fields
  attrs : List Attribute
deriving DecidableEq

/-- Model of `syn::Data`: an enum with its ordered variant list, or a
struct/union (both rejected by the macro). -/
inductive Data where
  | enum (variants : List Variant)
  | structData
  | unionData
deriving DecidableEq

/-- Model of `syn::DeriveInput`: the annotated type's identifier, its
type-level attributes, and its data. -/
structure DeriveInput where
  ident : String
  attrs : List Attribute
  data : Data
deriving DecidableEq

/-- The compile-time diagnostics the generator can produce, one constructor per
`Error::new…` site in the source (spec taxonomy names, payload = the offending
construct the Rust error's span points at). -/
inductive DeriveError where
  | nonEnumTarget
  | misplacedAttribute
  | unknownArgument (path : String)
  | typeMismatchLiteral
  | duplicateArgument (ident : String)
  | embeddedTerminatorByte (lit : List Byte)
  | variantHasFields (variant : String)
  | expectedNamedArgument
  | missingArguments
deriving DecidableEq

/-- Whether `CStr::from_bytes_with_nul(b)` is an error: true iff `b` does not end in a
single nul byte with no interior nul. -/
def cstr_from_bytes_with_nul_is_err (b : List Byte) : Bool :=
  b.dropLast.contains 0 || !(b.getLast? == some 0)

/-- Model of `VariantMeta`: per-variant configuration parsed from attributes.
`name` holds the byte-string literal content (nul already appended, as in the
source which stores `LitByteStr::new(name.as_bytes(), …)` after `push('\0')`). -/
structure VariantMeta where
  name : Option (List Byte) := none
deriving DecidableEq

/-- Source `VariantMeta::check_not_set`: fail with "duplicate named argument" if the
field was already set. -/
def check_not_set (field : Option (List Byte)) (ident : String) : Except DeriveError Unit :=
  if field.isSome then .error (.duplicateArgument ident) else .ok ()

/-- Source `VariantMeta::parse_nv`: parse one `KEY = VALUE` item inside `#[cstr(...)]`.
Only the key `name` is recognized; its value must be a string literal; the
text plus appended nul must be a valid C string. -/
def VariantMeta.parse_nv (m : VariantMeta) (nv : MetaNameValue) : Except DeriveError VariantMeta :=
  if nv.path = "name" then
    match check_not_set m.name nv.path with
    | .error e => .error e
    | .ok _ =>
      match nv.lit with
      | .str s =>
        let name := s ++ [0]
        if cstr_from_bytes_with_nul_is_err name then
          .error (.embeddedTerminatorByte s)
        else
          .ok { name := some name }
      | .other => .error .typeMismatchLiteral
  else
    .error (.unknownArgument nv.path)

/-- The loop body of `VariantMeta::parse_meta` over the nested items. -/
def VariantMeta.parse_meta_items (m : VariantMeta) : List NestedMeta → Except DeriveError VariantMeta
  | [] => .ok m
  | x :: xs =>
    match x with
    | .metaNV nv =>
      match m.parse_nv nv with
      | .ok m' => m'.parse_meta_items xs
      | .error e => .error e
    | .otherNested => .error .expectedNamedArgument

/-- Source `VariantMeta::parse_meta`: parse a single `#[cstr(...)]` meta on a variant. -/
def VariantMeta.parse_meta (m : VariantMeta) (meta : Meta) : Except DeriveError VariantMeta :=
  match meta with
  | .list ns => m.parse_meta_items ns
  | .otherMeta => .error .missingArguments

/-- The loop of `VariantMeta::from_attrs` over the variant's attributes,
processing only those whose path is `cstr`. -/
def VariantMeta.from_attrs_loop (m : VariantMeta) : List Attribute → Except DeriveError VariantMeta
  | [] => .ok m
  | a :: rest =>
    if a.path = "cstr" then
      match m.parse_meta a.meta with
      | .ok m' => m'.from_attrs_loop rest
      | .error e => .error e
    else
      m.from_attrs_loop rest

/-- Source `VariantMeta::from_attrs`: build the variant meta info from attributes. -/
def VariantMeta.from_attrs (attrs : List Attribute) : Except DeriveError VariantMeta :=
  VariantMeta.from_attrs_loop {} attrs

/-- Source `ident_to_byte_str_lit`: convert an ident to a nul-terminated byte-string
literal (`ident.to_string()` + `'\0'`). -/
def ident_to_byte_str_lit (ident : String) : List Byte :=
  strBytes ident ++ [0]

/-- Source `check_enum_attrs`: check that `#[cstr(...)]` is not applied to the enum
itself (first attribute with path `cstr` is an error). -/
def check_enum_attrs (input : DeriveInput) : Except DeriveError Unit :=
  if input.attrs.any (fun a => a.path = "cstr") then .error .misplacedAttribute else .ok ()

/-- The per-variant loop of `get_name_mapping`: fields check (when
`unit_variants_only`), attribute parsing, then default-name resolution, in
declaration order, fail-fast. -/
def get_name_mapping_loop (unit_variants_only : Bool) :
    List Variant → Except DeriveError (List String × List (List Byte))
  | [] => .ok ([], [])
  | v :: rest =>
    if unit_variants_only = true ∧ v.fields ≠ Fields.unit then
      .error (.variantHasFields v.ident)
    else
      match VariantMeta.from_attrs v.attrs with
      | .error e => .error e
      | .ok opts =>
        match get_name_mapping_loop unit_variants_only rest with
        | .error e => .error e
        | .ok (idents, bytestrs) =>
          .ok (v.ident :: idents, opts.name.getD (ident_to_byte_str_lit v.ident) :: bytestrs)

/-- Source `get_name_mapping`: retrieve the mapping between enum variants and their
CStr representations.  Checks type-level attributes first, then that the
target is an enum, then runs the per-variant loop. -/
def get_name_mapping (input : DeriveInput) (unit_variants_only : Bool) :
    Except DeriveError (List String × List (List Byte)) :=
  match check_enum_attrs input with
  | .error e => .error e
  | .ok _ =>
    match input.data with
    | .enum variants => get_name_mapping_loop unit_variants_only variants
    | _ => .error .nonEnumTarget

/-- The name table computed by `derive_ascstr_enum` (forward derive):
`get_name_mapping` with `unit_variants_only = false`. -/
def derive_ascstr_mapping (input : DeriveInput) :
    Except DeriveError (List String × List (List Byte)) :=
  get_name_mapping input false

/-- The name table computed by `derive_fromcstr_enum` (reverse derive):
`get_name_mapping` with `unit_variants_only = true`, then each byte string
replaced by `&bytes[..bytes.len() - 1]` (terminator removed). -/
def derive_fromcstr_mapping (input : DeriveInput) :
    Except DeriveError (List String × List (List Byte)) :=
  match get_name_mapping input true with
  | .error e => .error e
  | .ok (idents, vals) => .ok (idents, vals.map (fun b => b.take (b.length - 1)))

/-- A runtime value of the derived enum: the variant tag (declaration index)
plus whatever field data the instance carries (opaque to the macro). -/
structure EnumValue where
  tag : Nat
  fieldData : List Nat
deriving DecidableEq

/-- Semantics of the emitted `as_cstr` body: an exhaustive match
`Self::V{..} => …` over the variants, i.e. dispatch on the tag alone,
returning that arm's nul-terminated byte-string literal (the bytes the
`CStr::from_bytes_with_nul_unchecked` view exposes). -/
def emitted_as_cstr (table : List (List Byte)) (x : EnumValue) : Option (List Byte) :=
  table[x.tag]?

/-- Semantics of the emitted `from_cstr` match arms: try the byte-string
patterns in declaration order, first exact match wins, returning that arm's
variant (its declaration index). -/
def emitted_from_cstr_arms : List (List Byte) → Nat → List Byte → Option Nat
  | [], _, _ => none
  | p :: ps, i, s => if s = p then some i else emitted_from_cstr_arms ps (i + 1) s

/-- The error message the emitted `from_cstr` returns on no match:
`format!("unexpected string while parsing for {} variant", ident)`. -/
def err_msg (typeName : String) : List Byte :=
  strBytes ("unexpected string while parsing for " ++ typeName ++ " variant")

/-- Semantics of the emitted `from_cstr` body: match `s.to_bytes()` (the input
CStr's content without terminator) against the trimmed patterns in order;
wildcard arm returns the error message naming the type. -/
def emitted_from_cstr (typeName : String) (patterns : List (List Byte)) (s : List Byte) :
    Except (List Byte) Nat :=
  match emitted_from_cstr_arms patterns 0 s with
  | some i => .ok i
  | none => .error (err_msg typeName)

/-- The string-literal value of a nested meta item when it is a `name = "…"`
pair, else `none`.  Used to state which override texts a variant's attributes
supply, in attribute order. -/
def nv_name_value (x : NestedMeta) : Option (List Byte) :=
  match x with
  | .metaNV nv =>
    if nv.path = "name" then
      match nv.lit with
      | .str s => some s
      | .other => none
    else none
  | .otherNested => none

/-- All `name = "…"` string values inside one meta, in order. -/
def str_name_values (meta : Meta) : List (List Byte) :=
  match meta with
  | .list ns => ns.filterMap nv_name_value
  | .otherMeta => []

/-- All `name` override texts supplied by a variant's `cstr` attributes, in
attribute-list order. -/
def supplied_names : List Attribute → List (List Byte)
  | [] => []
  | a :: rest =>
    (if a.path = "cstr" then str_name_values a.meta else []) ++ supplied_names rest

/-- Spec-side definition of a variant's resolved terminated name, following the
spec's words: the override text when a name override is present, otherwise the
variant's identifier text, verbatim, with exactly one terminator byte appended. -/
def spec_resolved_name (v : Variant) : List Byte :=
  match (supplied_names v.attrs).head? with
  | some s => s ++ [0]
  | none => strBytes v.ident ++ [0]

/-- A byte sequence that is a valid argument to
`CStr::from_bytes_with_nul_unchecked`: it ends in a terminator byte and has no
interior terminator byte. -/
def cstr_wf (b : List Byte) : Prop :=
  b.getLast? = some 0 ∧ 0 ∉ b.dropLast

/-- Well-formedness of the stored override name of a `VariantMeta`. -/
def name_wf (o : Option (List Byte)) : Prop :=
  ∀ n ∈ o, cstr_wf n

/-- Host-language guarantee about Rust identifiers (not checked by the macro):
a non-raw ASCII identifier is nonempty and each character is a letter, digit or
underscore — in particular its bytes never contain the terminator byte `0`. -/
def valid_ident (s : String) : Prop :=
  s.data ≠ [] ∧ ∀ c ∈ s.data,
    c.toNat = 95 ∨ (48 ≤ c.toNat ∧ c.toNat ≤ 57) ∨
    (65 ≤ c.toNat ∧ c.toNat ≤ 90) ∨ (97 ≤ c.toNat ∧ c.toNat ≤ 122)

/-- The variant list of the documentation example `Constants`
(`Apple`, `Bacon` renamed to `"pork"`, `Cat`). -/
def sampleVariants : List Variant :=
  [⟨"Apple", .unit, []⟩,
   ⟨"Bacon", .unit, [⟨"cstr", .list [.metaNV ⟨"name", .str (strBytes "pork")⟩]⟩]⟩,
   ⟨"Cat", .unit, []⟩]

/-- The documentation example enum `Constants` as a derive input. -/
def sampleInput : DeriveInput :=
  ⟨"Constants", [], .enum sampleVariants⟩

/-- The identifier list `get_name_mapping` computes for `sampleInput`. -/
def sampleIdents : List String :=
  ["Apple", "Bacon", "Cat"]

/-- The terminated name table `get_name_mapping` computes for `sampleInput`. -/
def sampleVals : List (List Byte) :=
  [strBytes "Apple" ++ [0], strBytes "pork" ++ [0], strBytes "Cat" ++ [0]]

/-- The trimmed name table `derive_fromcstr_mapping` computes for
`sampleInput`. -/
def sampleTrimmed : List (List Byte) :=
  [strBytes "Apple", strBytes "pork", strBytes "Cat"]

/-- An enum in which two distinct variants resolve to the same name `"pork"`:
the generator accepts it, which breaks the naive round-trip property. -/
def dupNamesInput : DeriveInput :=
  ⟨"Constants", [],
   .enum [⟨"Apple", .unit, [⟨"cstr", .list [.metaNV ⟨"name", .str (strBytes "pork")⟩]⟩]⟩,
          ⟨"Bacon", .unit, [⟨"cstr", .list [.metaNV ⟨"name", .str (strBytes "pork")⟩]⟩]⟩]⟩

/-- An enum with a unit variant and a variant with a (non-empty) named-field
block, used to exercise the unit-variant check. -/
def c6Input : DeriveInput :=
  ⟨"E", [], .enum [⟨"A", .unit, []⟩, ⟨"B", .named 2, []⟩]⟩

/-- One `cstr` attribute block supplying the `name` key twice. -/
def dupNameAttrs : List Attribute :=
  [⟨"cstr", .list [.metaNV ⟨"name", .str [97]⟩, .metaNV ⟨"name", .str [98]⟩]⟩]

/-- A well-formed name-value item: key `name`, string-literal value without
interior terminator byte (the shape that passes every `parse_nv` check other
than the duplicate check). -/
def wf_nv (nv : MetaNameValue) : Prop :=
  nv.path = "name" ∧ ∃ s, nv.lit = Lit.str s ∧ 0 ∉ s

/-- A well-formed attribute: when its path is `cstr`, its meta is a list whose
items are all well-formed name-value items. -/
def wf_attr (a : Attribute) : Prop :=
  a.path = "cstr" → ∃ ns, a.meta = Meta.list ns ∧ ∀ x ∈ ns, ∃ nv, x = NestedMeta.metaNV nv ∧ wf_nv nv

/-- Well-formedness of a variant's whole attribute list. -/
def wf_attrs (attrs : List Attribute) : Prop :=
  ∀ a ∈ attrs, wf_attr a

/-- The head of an option's list view is the option itself. -/
theorem head?_toList {α : Type} (o : Option α) : o.toList.head? = o := by
  cases o <;> rfl

/-- Appending the terminator makes `from_bytes_with_nul` fail exactly when the
un-terminated text contains a terminator byte. -/
theorem cstr_err_append (s : List Byte) :
    cstr_from_bytes_with_nul_is_err (s ++ [0]) = true ↔ 0 ∈ s := by
  simp [cstr_from_bytes_with_nul_is_err, List.dropLast_concat, List.getLast?_concat]

/-- Characterization of a successful `parse_nv`: the name was not yet set, the
key is `name`, the value is a string literal without interior terminator, and
the stored name is that text plus one terminator byte. -/
theorem parse_nv_ok_iff (m m' : VariantMeta) (nv : MetaNameValue) :
    m.parse_nv nv = .ok m' ↔
      m.name = none ∧ nv.path = "name" ∧
      ∃ s, nv.lit = .str s ∧ 0 ∉ s ∧ m' = ⟨some (s ++ [0])⟩ := by
  obtain ⟨p, l⟩ := nv
  obtain ⟨mn⟩ := m
  by_cases hp : p = "name"
  · subst hp
    cases mn with
    | some n => simp [VariantMeta.parse_nv, check_not_set]
    | none =>
      cases l with
      | str s =>
        by_cases hz : 0 ∈ s
        · have he : cstr_from_bytes_with_nul_is_err (s ++ [0]) = true :=
            (cstr_err_append s).mpr hz
          simp [VariantMeta.parse_nv, check_not_set, he, hz]
        · have he : cstr_from_bytes_with_nul_is_err (s ++ [0]) ≠ true :=
            fun h => hz ((cstr_err_append s).mp h)
          simp only [VariantMeta.parse_nv, check_not_set, Option.isSome_none,
            Bool.false_eq_true, if_false, if_neg he, if_true, Except.ok.injEq,
            Lit.str.injEq, true_and]
          constructor
          · rintro rfl
            exact ⟨s, rfl, hz, rfl⟩
          · rintro ⟨t, rfl, hzt, rfl⟩
            rfl
      | other => simp [VariantMeta.parse_nv, check_not_set]
  · simp [VariantMeta.parse_nv, hp]

/-- Running the nested-item loop successfully leaves the first name supplied,
terminated, giving priority to a name already stored. -/
theorem parse_meta_items_ok (ns : List NestedMeta) (m m' : VariantMeta)
    (h : m.parse_meta_items ns = .ok m') :
    m'.name = (m.name.toList ++ (ns.filterMap nv_name_value).map (· ++ [0])).head? := by
  induction ns generalizing m with
  | nil =>
    cases h
    simp [head?_toList]
  | cons x xs ih =>
    cases x with
    | otherNested => simp [VariantMeta.parse_meta_items] at h
    | metaNV nv =>
      simp only [VariantMeta.parse_meta_items] at h
      split at h
      case h_1 m1 heq =>
        obtain ⟨hmn, hpath, s, hlit, hz, rfl⟩ := (parse_nv_ok_iff m _ nv).mp heq
        rw [ih _ h, hmn]
        simp [nv_name_value, hpath, hlit]
      case h_2 e heq => simp at h

/-- Running `parse_meta` successfully leaves the first name supplied,
terminated, giving priority to a name already stored. -/
theorem parse_meta_ok (meta : Meta) (m m' : VariantMeta)
    (h : m.parse_meta meta = .ok m') :
    m'.name = (m.name.toList ++ (str_name_values meta).map (· ++ [0])).head? := by
  cases meta with
  | list ns => exact parse_meta_items_ok ns m m' h
  | otherMeta => simp [VariantMeta.parse_meta] at h

/-- Running the attribute loop successfully leaves the first name supplied,
terminated, giving priority to a name already stored. -/
theorem from_attrs_loop_ok (attrs : List Attribute) (m m' : VariantMeta)
    (h : VariantMeta.from_attrs_loop m attrs = .ok m') :
    m'.name = (m.name.toList ++ (supplied_names attrs).map (· ++ [0])).head? := by
  induction attrs generalizing m with
  | nil =>
    cases h
    simp [supplied_names, head?_toList]
  | cons a rest ih =>
    simp only [VariantMeta.from_attrs_loop] at h
    by_cases hc : a.path = "cstr"
    · rw [if_pos hc] at h
      split at h
      next m1 heq =>
        rw [ih _ h, parse_meta_ok a.meta m m1 heq]
        simp only [supplied_names, hc, if_pos, List.map_append, List.append_assoc,
          List.head?_append, head?_toList, Option.or_assoc]
      next e heq => simp at h
    · rw [if_neg hc] at h
      rw [ih _ h]
      simp [supplied_names, hc]

/-- A successful `from_attrs` stores exactly the first supplied `name` text
(terminated), or nothing when no name was supplied. -/
theorem from_attrs_ok_name (attrs : List Attribute) (o : VariantMeta)
    (h : VariantMeta.from_attrs attrs = .ok o) :
    o.name = (supplied_names attrs).head?.map (· ++ [0]) := by
  have := from_attrs_loop_ok attrs {} o h
  simpa [Option.toList, List.head?_map] using this

/-- A name stored by a successful `parse_nv` is a well-formed C string. -/
theorem parse_nv_wf (m m' : VariantMeta) (nv : MetaNameValue)
    (h : m.parse_nv nv = .ok m') : name_wf m'.name := by
  obtain ⟨-, -, s, -, hz, rfl⟩ := (parse_nv_ok_iff m m' nv).mp h
  intro n hn
  rw [Option.mem_def, Option.some.injEq] at hn
  subst hn
  exact ⟨List.getLast?_concat _, by simpa [List.dropLast_concat] using hz⟩

/-- The nested-item loop preserves well-formedness of the stored name. -/
theorem parse_meta_items_wf (ns : List NestedMeta) (m m' : VariantMeta)
    (hw : name_wf m.name) (h : m.parse_meta_items ns = .ok m') : name_wf m'.name := by
  induction ns generalizing m with
  | nil => cases h; exact hw
  | cons x xs ih =>
    cases x with
    | otherNested => simp [VariantMeta.parse_meta_items] at h
    | metaNV nv =>
      simp only [VariantMeta.parse_meta_items] at h
      split at h
      case h_1 m1 heq => exact ih _ (parse_nv_wf m m1 nv heq) h
      case h_2 e heq => simp at h

/-- Parsing one meta preserves well-formedness of the stored name. -/
theorem parse_meta_wf (meta : Meta) (m m' : VariantMeta)
    (hw : name_wf m.name) (h : m.parse_meta meta = .ok m') : name_wf m'.name := by
  cases meta with
  | list ns => exact parse_meta_items_wf ns m m' hw h
  | otherMeta => simp [VariantMeta.parse_meta] at h

/-- The attribute loop preserves well-formedness of the stored name. -/
theorem from_attrs_loop_wf (attrs : List Attribute) (m m' : VariantMeta)
    (hw : name_wf m.name) (h : VariantMeta.from_attrs_loop m attrs = .ok m') :
    name_wf m'.name := by
  induction attrs generalizing m with
  | nil => cases h; exact hw
  | cons a rest ih =>
    simp only [VariantMeta.from_attrs_loop] at h
    by_cases hc : a.path = "cstr"
    · rw [if_pos hc] at h
      split at h
      next m1 heq => exact ih _ (parse_meta_wf a.meta m m1 hw heq) h
      next e heq => simp at h
    · rw [if_neg hc] at h
      exact ih _ hw h

/-- The name a successful `from_attrs` stores is a well-formed C string. -/
theorem from_attrs_wf (attrs : List Attribute) (o : VariantMeta)
    (h : VariantMeta.from_attrs attrs = .ok o) : name_wf o.name :=
  from_attrs_loop_wf attrs {} o (by intro n hn; simp at hn) h

/-- A successful mapping loop returns the variant identifiers in declaration
order and one byte string per variant. -/
theorem loop_ok_shape (uv : Bool) (vs : List Variant) (idents : List String)
    (bys : List (List Byte)) (h : get_name_mapping_loop uv vs = .ok (idents, bys)) :
    idents = vs.map Variant.ident ∧ bys.length = vs.length := by
  induction vs generalizing idents bys with
  | nil =>
    simp only [get_name_mapping_loop, Except.ok.injEq, Prod.mk.injEq] at h
    obtain ⟨rfl, rfl⟩ := h
    simp
  | cons v rest ih =>
    simp only [get_name_mapping_loop] at h
    split at h
    · simp at h
    · split at h
      next e heq => simp at h
      next opts heq =>
        split at h
        next e heq2 => simp at h
        next idents1 bys1 heq2 =>
          simp only [Except.ok.injEq, Prod.mk.injEq] at h
          obtain ⟨rfl, rfl⟩ := h
          obtain ⟨hi, hb⟩ := ih idents1 bys1 heq2
          simp [hi, hb]

/-- Pointwise characterization of a successful mapping loop: the byte string at
index `i` is the parsed override name of variant `i` (which parsed
successfully), defaulting to the terminated identifier. -/
theorem loop_ok_resolved (uv : Bool) (vs : List Variant) (idents : List String)
    (bys : List (List Byte)) (h : get_name_mapping_loop uv vs = .ok (idents, bys))
    (i : Nat) (v : Variant) (hv : vs[i]? = some v) :
    ∃ opts, VariantMeta.from_attrs v.attrs = .ok opts ∧
      bys[i]? = some (opts.name.getD (ident_to_byte_str_lit v.ident)) := by
  induction vs generalizing idents bys i with
  | nil => simp at hv
  | cons w rest ih =>
    simp only [get_name_mapping_loop] at h
    split at h
    · simp at h
    · split at h
      next e heq => simp at h
      next opts heq =>
        split at h
        next e heq2 => simp at h
        next idents1 bys1 heq2 =>
          simp only [Except.ok.injEq, Prod.mk.injEq] at h
          obtain ⟨rfl, rfl⟩ := h
          cases i with
          | zero =>
            rw [List.getElem?_cons_zero] at hv
            cases hv
            exact ⟨opts, heq, by simp⟩
          | succ n =>
            rw [List.getElem?_cons_succ] at hv
            obtain ⟨o2, ho2, hb2⟩ := ih idents1 bys1 heq2 n hv
            exact ⟨o2, ho2, by simpa using hb2⟩

/-- When every variant's attributes parse successfully, the non-unit-checking
loop succeeds (no cross-variant condition, duplicate names included). -/
theorem loop_false_ok (vs : List Variant)
    (h : ∀ v ∈ vs, ∃ o, VariantMeta.from_attrs v.attrs = .ok o) :
    ∃ r, get_name_mapping_loop false vs = .ok r := by
  induction vs with
  | nil => exact ⟨([], []), rfl⟩
  | cons v rest ih =>
    obtain ⟨o, ho⟩ := h v (by simp)
    obtain ⟨⟨idents1, bys1⟩, hr⟩ := ih (fun w hw => h w (by simp [hw]))
    refine ⟨(v.ident :: idents1, o.name.getD (ident_to_byte_str_lit v.ident) :: bys1), ?_⟩
    simp only [get_name_mapping_loop]
    rw [if_neg (by simp), ho, hr]

/-- When every variant is a unit variant and every variant's attributes parse
successfully, the unit-checking loop succeeds. -/
theorem loop_true_ok (vs : List Variant)
    (hu : ∀ v ∈ vs, v.fields = Fields.unit)
    (h : ∀ v ∈ vs, ∃ o, VariantMeta.from_attrs v.attrs = .ok o) :
    ∃ r, get_name_mapping_loop true vs = .ok r := by
  induction vs with
  | nil => exact ⟨([], []), rfl⟩
  | cons v rest ih =>
    obtain ⟨o, ho⟩ := h v (by simp)
    obtain ⟨⟨idents1, bys1⟩, hr⟩ := ih (fun w hw => hu w (by simp [hw]))
      (fun w hw => h w (by simp [hw]))
    refine ⟨(v.ident :: idents1, o.name.getD (ident_to_byte_str_lit v.ident) :: bys1), ?_⟩
    simp only [get_name_mapping_loop]
    rw [if_neg (by simp [hu v (by simp)]), ho, hr]

/-- When every variant's attributes parse successfully and some variant is not
a unit variant, the unit-checking loop fails with `VariantHasFields` naming the
first such variant. -/
theorem loop_true_fails (vs : List Variant) (w : Variant)
    (h : ∀ v ∈ vs, ∃ o, VariantMeta.from_attrs v.attrs = .ok o)
    (hw : vs.find? (fun v => !(v.fields == Fields.unit)) = some w) :
    get_name_mapping_loop true vs = .error (.variantHasFields w.ident) := by
  induction vs with
  | nil => simp at hw
  | cons v rest ih =>
    by_cases hv : v.fields = Fields.unit
    · rw [List.find?_cons_of_neg _ (by simp [hv])] at hw
      obtain ⟨o, ho⟩ := h v (by simp)
      have hr := ih (fun u hu => h u (by simp [hu])) hw
      simp only [get_name_mapping_loop]
      rw [if_neg (by simp [hv]), ho, hr]
    · rw [List.find?_cons_of_pos _ (by simp [hv])] at hw
      cases hw
      simp only [get_name_mapping_loop]
      rw [if_pos ⟨trivial, hv⟩]

/-- A successful run of the unit-checking loop is also a successful run of the
non-checking loop, with the same output. -/
theorem loop_true_to_false (vs : List Variant)
    (r : List String × List (List Byte))
    (h : get_name_mapping_loop true vs = .ok r) :
    get_name_mapping_loop false vs = .ok r := by
  induction vs generalizing r with
  | nil => exact h
  | cons v rest ih =>
    simp only [get_name_mapping_loop] at h ⊢
    by_cases hv : v.fields = Fields.unit
    · rw [if_neg (by simp [hv])] at h
      rw [if_neg (by simp)]
      cases hfa : VariantMeta.from_attrs v.attrs with
      | error e => rw [hfa] at h; simp at h
      | ok opts =>
        rw [hfa] at h
        cases hlr : get_name_mapping_loop true rest with
        | error e => rw [hlr] at h; simp at h
        | ok r1 =>
          rw [hlr] at h
          obtain ⟨i1, b1⟩ := r1
          rw [ih _ hlr]
          exact h
    · rw [if_pos ⟨trivial, hv⟩] at h
      simp at h

/-- Destructing a successful `get_name_mapping`: the type-level attribute check
passed, the target is an enum, and the per-variant loop succeeded on its
variants. -/
theorem get_name_mapping_ok (input : DeriveInput) (uv : Bool)
    (r : List String × List (List Byte)) (h : get_name_mapping input uv = .ok r) :
    check_enum_attrs input = .ok () ∧
    ∃ vs, input.data = .enum vs ∧ get_name_mapping_loop uv vs = .ok r := by
  unfold get_name_mapping at h
  cases hc : check_enum_attrs input with
  | error e => rw [hc] at h; simp at h
  | ok u =>
    rw [hc] at h
    cases u
    refine ⟨rfl, ?_⟩
    cases hd : input.data with
    | enum vs => rw [hd] at h; exact ⟨vs, rfl, h⟩
    | structData => rw [hd] at h; simp at h
    | unionData => rw [hd] at h; simp at h

/-- When the type-level checks pass, `get_name_mapping` is the per-variant
loop. -/
theorem get_name_mapping_eq (input : DeriveInput) (uv : Bool) (vs : List Variant)
    (hc : check_enum_attrs input = .ok ()) (hd : input.data = .enum vs) :
    get_name_mapping input uv = get_name_mapping_loop uv vs := by
  unfold get_name_mapping
  rw [hc, hd]

/-- A mapping computed with the unit-variant check also arises without it. -/
theorem get_name_mapping_true_to_false (input : DeriveInput)
    (r : List String × List (List Byte)) (h : get_name_mapping input true = .ok r) :
    get_name_mapping input false = .ok r := by
  obtain ⟨hc, vs, hd, hl⟩ := get_name_mapping_ok input true r h
  rw [get_name_mapping_eq input false vs hc hd]
  exact loop_true_to_false vs r hl

/-- The emitted match arms return `some j` exactly when the pattern at offset
`j - i` is the first one equal to the input. -/
theorem arms_some_iff (ps : List (List Byte)) (s : List Byte) (i j : Nat) :
    emitted_from_cstr_arms ps i s = some j ↔
      ∃ k, j = i + k ∧ ps[k]? = some s ∧ ∀ l, l < k → ps[l]? ≠ some s := by
  induction ps generalizing i with
  | nil => simp [emitted_from_cstr_arms]
  | cons p ps ih =>
    simp only [emitted_from_cstr_arms]
    by_cases hs : s = p
    · subst hs
      rw [if_pos rfl]
      constructor
      · intro h
        injection h with h'
        subst h'
        exact ⟨0, by omega, by simp, fun l hl => absurd hl (by omega)⟩
      · rintro ⟨k, rfl, hk, hlt⟩
        cases k with
        | zero => simp
        | succ n => exact absurd (by simp : (s :: ps)[0]? = some s) (hlt 0 (Nat.succ_pos n))
    · rw [if_neg hs, ih (i + 1)]
      constructor
      · rintro ⟨k, rfl, hk, hlt⟩
        refine ⟨k + 1, by omega, by simpa using hk, ?_⟩
        intro l hl
        cases l with
        | zero =>
          simp only [List.getElem?_cons_zero]
          exact fun hc => hs (by injection hc with hc'; exact hc'.symm)
        | succ n => simpa using hlt n (by omega)
      · rintro ⟨k, hj, hk, hlt⟩
        cases k with
        | zero =>
          rw [List.getElem?_cons_zero] at hk
          exact absurd (by injection hk with hk'; exact hk'.symm) hs
        | succ n =>
          refine ⟨n, by omega, by simpa using hk, ?_⟩
          intro l hl
          simpa using hlt (l + 1) (by omega)

/-- The emitted match arms return `none` exactly when no pattern equals the
input. -/
theorem arms_none_iff (ps : List (List Byte)) (s : List Byte) (i : Nat) :
    emitted_from_cstr_arms ps i s = none ↔ s ∉ ps := by
  induction ps generalizing i with
  | nil => simp [emitted_from_cstr_arms]
  | cons p ps ih =>
    simp only [emitted_from_cstr_arms, List.mem_cons]
    by_cases hs : s = p
    · simp [hs]
    · rw [if_neg hs, ih (i + 1)]
      simp [hs]

/-- The emitted reverse function returns `Ok j` exactly when pattern `j` is the
first pattern equal to the input. -/
theorem emitted_from_cstr_ok_iff (tn : String) (ps : List (List Byte))
    (s : List Byte) (j : Nat) :
    emitted_from_cstr tn ps s = .ok j ↔
      ps[j]? = some s ∧ ∀ l, l < j → ps[l]? ≠ some s := by
  constructor
  · intro h
    unfold emitted_from_cstr at h
    cases ha : emitted_from_cstr_arms ps 0 s with
    | none => rw [ha] at h; simp at h
    | some k =>
      rw [ha] at h
      simp only [Except.ok.injEq] at h
      subst h
      obtain ⟨k', hk', hmem, hlt⟩ := (arms_some_iff ps s 0 k).mp ha
      rw [Nat.zero_add] at hk'
      subst hk'
      exact ⟨hmem, hlt⟩
  · rintro ⟨hmem, hlt⟩
    have ha : emitted_from_cstr_arms ps 0 s = some (0 + j) :=
      (arms_some_iff ps s 0 (0 + j)).mpr ⟨j, rfl, hmem, hlt⟩
    unfold emitted_from_cstr
    rw [ha]
    simp

/-- The emitted reverse function fails exactly when the input equals no
pattern, and the failure value is the fixed message naming the type. -/
theorem emitted_from_cstr_error_iff (tn : String) (ps : List (List Byte))
    (s : List Byte) (e : List Byte) :
    emitted_from_cstr tn ps s = .error e ↔ s ∉ ps ∧ e = err_msg tn := by
  unfold emitted_from_cstr
  cases ha : emitted_from_cstr_arms ps 0 s with
  | none =>
    have hm : s ∉ ps := (arms_none_iff ps s 0).mp ha
    simp [hm, eq_comm]
  | some k =>
    have hm : ¬s ∉ ps := by
      intro hn
      rw [(arms_none_iff ps s 0).mpr hn] at ha
      simp at ha
    simp [hm]

/-- On a list of well-formed name-value items, every item supplies a name. -/
theorem str_name_values_wf_length (ns : List NestedMeta)
    (hwf : ∀ x ∈ ns, ∃ nv, x = NestedMeta.metaNV nv ∧ wf_nv nv) :
    (ns.filterMap nv_name_value).length = ns.length := by
  induction ns with
  | nil => rfl
  | cons x xs ih =>
    obtain ⟨nv, rfl, hpath, s, hlit, hz⟩ := hwf x (by simp)
    rw [List.filterMap_cons]
    have : nv_name_value (NestedMeta.metaNV nv) = some s := by
      simp [nv_name_value, hpath, hlit]
    rw [this]
    simp [ih (fun y hy => hwf y (by simp [hy]))]

/-- Counting behaviour of the nested-item loop on well-formed items: a second
name (counting one already stored) fails with the duplicate diagnostic, and at
most one name in total succeeds, storing exactly that count. -/
theorem parse_meta_items_count (ns : List NestedMeta) (m : VariantMeta)
    (hwf : ∀ x ∈ ns, ∃ nv, x = NestedMeta.metaNV nv ∧ wf_nv nv) :
    (2 ≤ m.name.toList.length + ns.length →
       m.parse_meta_items ns = .error (.duplicateArgument "name")) ∧
    (m.name.toList.length + ns.length ≤ 1 →
       ∃ m', m.parse_meta_items ns = .ok m' ∧
         m'.name.toList.length = m.name.toList.length + ns.length) := by
  induction ns generalizing m with
  | nil =>
    have hle : m.name.toList.length ≤ 1 := by cases m.name <;> simp
    exact ⟨fun h2 => by simp at h2; omega, fun _ => ⟨m, rfl, by simp⟩⟩
  | cons x xs ih =>
    obtain ⟨nv, rfl, hpath, s, hlit, hz⟩ := hwf x (by simp)
    cases hmn : m.name with
    | some n =>
      have hstep : m.parse_meta_items (NestedMeta.metaNV nv :: xs)
          = .error (.duplicateArgument "name") := by
        simp [VariantMeta.parse_meta_items, VariantMeta.parse_nv, check_not_set,
          hpath, hmn]
      refine ⟨fun _ => hstep, fun hle => ?_⟩
      simp at hle
    | none =>
      have hok := (parse_nv_ok_iff m ⟨some (s ++ [0])⟩ nv).mpr
        ⟨hmn, hpath, s, hlit, hz, rfl⟩
      have hstep : m.parse_meta_items (NestedMeta.metaNV nv :: xs)
          = VariantMeta.parse_meta_items ⟨some (s ++ [0])⟩ xs := by
        simp [VariantMeta.parse_meta_items, hok]
      obtain ⟨ihd, iho⟩ := ih ⟨some (s ++ [0])⟩ (fun y hy => hwf y (by simp [hy]))
      constructor
      · intro h2
        simp at h2
        rw [hstep]
        exact ihd (by change 2 ≤ 1 + xs.length; omega)
      · intro hle
        simp at hle
        subst hle
        exact ⟨⟨some (s ++ [0])⟩, by rw [hstep]; rfl, by simp⟩

/-- Counting behaviour of the attribute loop on well-formed attributes: two
supplied names (counting one already stored) fail with the duplicate
diagnostic; at most one succeeds. -/
theorem from_attrs_loop_count (attrs : List Attribute) (m : VariantMeta)
    (hwf : wf_attrs attrs) :
    (2 ≤ m.name.toList.length + (supplied_names attrs).length →
       VariantMeta.from_attrs_loop m attrs = .error (.duplicateArgument "name")) ∧
    (m.name.toList.length + (supplied_names attrs).length ≤ 1 →
       ∃ m', VariantMeta.from_attrs_loop m attrs = .ok m' ∧
         m'.name.toList.length = m.name.toList.length + (supplied_names attrs).length) := by
  induction attrs generalizing m with
  | nil =>
    constructor
    · intro h2
      have hle : m.name.toList.length ≤ 1 := by cases m.name <;> simp
      simp [supplied_names] at h2
      omega
    · intro _
      exact ⟨m, rfl, by simp [supplied_names]⟩
  | cons a rest ih =>
    by_cases hc : a.path = "cstr"
    · obtain ⟨ns, hmeta, hns⟩ := hwf a (by simp) hc
      have hlen : (str_name_values a.meta).length = ns.length := by
        rw [hmeta]
        exact str_name_values_wf_length ns hns
      have hsn : supplied_names (a :: rest)
          = str_name_values a.meta ++ supplied_names rest := by
        simp [supplied_names, hc]
      obtain ⟨pd, po⟩ := parse_meta_items_count ns m hns
      constructor
      · intro h2
        rw [hsn, List.length_append, hlen] at h2
        by_cases hbig : 2 ≤ m.name.toList.length + ns.length
        · have hpm : m.parse_meta a.meta = .error (.duplicateArgument "name") := by
            rw [hmeta]
            exact pd hbig
          simp only [VariantMeta.from_attrs_loop]
          rw [if_pos hc, hpm]
        · push_neg at hbig
          obtain ⟨m1, hm1, hcnt⟩ := po (by omega)
          have hpm : m.parse_meta a.meta = .ok m1 := by
            rw [hmeta]
            exact hm1
          simp only [VariantMeta.from_attrs_loop]
          rw [if_pos hc, hpm]
          exact (ih m1 (fun b hb => hwf b (by simp [hb]))).1 (by omega)
      · intro hle
        rw [hsn, List.length_append, hlen] at hle
        obtain ⟨m1, hm1, hcnt⟩ := po (by omega)
        have hpm : m.parse_meta a.meta = .ok m1 := by
          rw [hmeta]
          exact hm1
        obtain ⟨m', hm', hcnt'⟩ := (ih m1 (fun b hb => hwf b (by simp [hb]))).2 (by omega)
        refine ⟨m', ?_, ?_⟩
        · simp only [VariantMeta.from_attrs_loop]
          rw [if_pos hc, hpm]
          exact hm'
        · rw [hcnt', hcnt, hsn, List.length_append, hlen]
          omega
    · have hsn : supplied_names (a :: rest) = supplied_names rest := by
        simp [supplied_names, hc]
      obtain ⟨d1, o1⟩ := ih m (fun b hb => hwf b (by simp [hb]))
      constructor
      · intro h2
        rw [hsn] at h2
        simp only [VariantMeta.from_attrs_loop]
        rw [if_neg hc]
        exact d1 h2
      · intro hle
        rw [hsn] at hle
        obtain ⟨m', hm', hcnt⟩ := o1 hle
        refine ⟨m', ?_, by rw [hcnt, hsn]⟩
        simp only [VariantMeta.from_attrs_loop]
        rw [if_neg hc]
        exact hm'

/-- Counting behaviour of `from_attrs` on well-formed attributes: more than one
supplied name fails with the duplicate diagnostic, at most one succeeds. -/
theorem from_attrs_count (attrs : List Attribute) (hwf : wf_attrs attrs) :
    (2 ≤ (supplied_names attrs).length →
        VariantMeta.from_attrs attrs = .error (.duplicateArgument "name")) ∧
    ((supplied_names attrs).length ≤ 1 →
        ∃ o, VariantMeta.from_attrs attrs = .ok o) := by
  obtain ⟨d, o⟩ := from_attrs_loop_count attrs {} hwf
  constructor
  · intro h2
    exact d (by change 2 ≤ 0 + (supplied_names attrs).length; omega)
  · intro hle
    obtain ⟨m', hm', -⟩ := o (by change 0 + (supplied_names attrs).length ≤ 1; omega)
    exact ⟨m', hm'⟩

/-- A valid Rust identifier's bytes never contain the terminator byte. -/
theorem valid_ident_no_nul (s : String) (h : valid_ident s) : 0 ∉ strBytes s := by
  intro hmem
  rw [strBytes, List.mem_map] at hmem
  obtain ⟨c, hc, hc0⟩ := hmem
  have h' := h.2 c hc
  rw [hc0] at h'
  rcases h' with h1 | h1 | h1 | h1 <;> omega

/-- C1: for every enum whose forward-mapping generation succeeds and for every
variant of that enum (variants carrying positional or named fields included),
the emitted `as_cstr` is total and returns the variant's resolved terminated
name from the generated table, selected by the variant's tag alone, ignoring
whatever field values the instance carries. -/
theorem claim_c1 (input : DeriveInput) (idents : List String)
    (vals : List (List Byte)) (vs : List Variant) (tag : Nat)
    (h : derive_ascstr_mapping input = .ok (idents, vals))
    (hd : input.data = .enum vs) (htag : tag < vs.length)
    (fieldData fieldData' : List Nat) :
    vals.length = vs.length ∧
    emitted_as_cstr vals ⟨tag, fieldData⟩ = emitted_as_cstr vals ⟨tag, fieldData'⟩ ∧
    ∃ b, emitted_as_cstr vals ⟨tag, fieldData⟩ = some b ∧ vals[tag]? = some b := by
  obtain ⟨hc, vs', hd', hl⟩ := get_name_mapping_ok input false _ h
  rw [hd] at hd'
  injection hd' with hvv
  subst hvv
  obtain ⟨-, hlen⟩ := loop_ok_shape false vs idents vals hl
  have hlt : tag < vals.length := by omega
  have hv : vals[tag]? = some (vals.get ⟨tag, hlt⟩) := List.getElem?_eq_getElem hlt
  exact ⟨hlen, rfl, vals.get ⟨tag, hlt⟩, hv, hv⟩

/-- C2: for every variant, the byte string in the generated table is the
spec-side resolved name: the override text when a name override is present,
otherwise the variant's identifier text, verbatim, with exactly one terminator
byte appended at the end. -/
theorem claim_c2 (input : DeriveInput) (uv : Bool) (idents : List String)
    (vals : List (List Byte)) (vs : List Variant) (i : Nat) (v : Variant)
    (h : get_name_mapping input uv = .ok (idents, vals))
    (hd : input.data = .enum vs) (hv : vs[i]? = some v) :
    vals[i]? = some (spec_resolved_name v) := by
  obtain ⟨hc, vs', hd', hl⟩ := get_name_mapping_ok input uv _ h
  rw [hd] at hd'
  injection hd' with hvv
  subst hvv
  obtain ⟨opts, hopts, hbys⟩ := loop_ok_resolved uv vs idents vals hl i v hv
  rw [hbys, from_attrs_ok_name v.attrs opts hopts]
  unfold spec_resolved_name ident_to_byte_str_lit
  cases (supplied_names v.attrs).head? <;> simp

/-- C3 (amended): for a unit-only enum accepted by both derivations whose
trimmed resolved names are pairwise distinct, applying the emitted reverse
function to the forward function's output with the terminator byte removed
yields `Ok` of the same variant. -/
theorem claim_c3 (input : DeriveInput) (idents idents2 : List String)
    (trimmed vals : List (List Byte)) (tag : Nat) (fieldData : List Nat)
    (b : List Byte)
    (hr : derive_fromcstr_mapping input = .ok (idents, trimmed))
    (hf : derive_ascstr_mapping input = .ok (idents2, vals))
    (hnd : trimmed.Nodup)
    (hb : emitted_as_cstr vals ⟨tag, fieldData⟩ = some b) :
    emitted_from_cstr input.ident trimmed b.dropLast = .ok tag := by
  unfold derive_fromcstr_mapping at hr
  cases hg : get_name_mapping input true with
  | error e => rw [hg] at hr; simp at hr
  | ok r0 =>
    obtain ⟨id0, vals0⟩ := r0
    rw [hg] at hr
    simp only [Except.ok.injEq, Prod.mk.injEq] at hr
    obtain ⟨rfl, rfl⟩ := hr
    have hfalse := get_name_mapping_true_to_false input _ hg
    unfold derive_ascstr_mapping at hf
    rw [hfalse] at hf
    simp only [Except.ok.injEq, Prod.mk.injEq] at hf
    obtain ⟨rfl, rfl⟩ := hf
    have hbt : vals0[tag]? = some b := hb
    obtain ⟨htag, -⟩ := List.getElem?_eq_some.mp hbt
    have htrim : (vals0.map (fun c => c.take (c.length - 1)))[tag]? = some b.dropLast := by
      rw [List.getElem?_map, hbt]
      simp [List.dropLast_eq_take]
    have hne : ∀ l, l < tag →
        (vals0.map (fun c => c.take (c.length - 1)))[l]? ≠ some b.dropLast := by
      intro l hl hcontra
      have hne' := (List.nodup_iff_getElem?_ne_getElem?.mp hnd) l tag hl
        (by simpa using htag)
      rw [hcontra, htrim] at hne'
      exact hne' rfl
    exact (emitted_from_cstr_ok_iff input.ident _ b.dropLast tag).mpr ⟨htrim, hne⟩

/-- C4: the emitted reverse function matches its input against each variant's
resolved name with the terminator byte removed, by exact byte equality, in
declaration order, returning the first variant whose name matches. -/
theorem claim_c4 (input : DeriveInput) (idents : List String)
    (trimmed : List (List Byte)) (s : List Byte) (j : Nat)
    (h : derive_fromcstr_mapping input = .ok (idents, trimmed)) :
    (∃ vals, get_name_mapping input true = .ok (idents, vals) ∧
        trimmed = vals.map List.dropLast) ∧
    (emitted_from_cstr input.ident trimmed s = .ok j ↔
        trimmed[j]? = some s ∧ ∀ l, l < j → trimmed[l]? ≠ some s) := by
  constructor
  · unfold derive_fromcstr_mapping at h
    cases hg : get_name_mapping input true with
    | error e => rw [hg] at h; simp at h
    | ok r0 =>
      obtain ⟨id0, vals0⟩ := r0
      rw [hg] at h
      simp only [Except.ok.injEq, Prod.mk.injEq] at h
      obtain ⟨rfl, rfl⟩ := h
      refine ⟨vals0, rfl, ?_⟩
      exact List.map_eq_map_iff.mpr (fun c _ => (List.dropLast_eq_take c).symm)
  · exact emitted_from_cstr_ok_iff input.ident trimmed s j

/-- C5: the emitted reverse function fails exactly when its input matches no
trimmed resolved name, the failure value is the fixed message naming the
generating type (carrying no candidate-name detail), and the emitted forward
function is total on valid instances. -/
theorem claim_c5 (input : DeriveInput) (idents idents2 : List String)
    (trimmed vals : List (List Byte)) (s : List Byte) (x : EnumValue)
    (h : derive_fromcstr_mapping input = .ok (idents, trimmed))
    (hf : derive_ascstr_mapping input = .ok (idents2, vals))
    (hx : x.tag < vals.length) :
    ((∃ e, emitted_from_cstr input.ident trimmed s = .error e) ↔ s ∉ trimmed) ∧
    (∀ e, emitted_from_cstr input.ident trimmed s = .error e →
        e = err_msg input.ident) ∧
    (emitted_as_cstr vals x).isSome = true := by
  refine ⟨⟨?_, ?_⟩, ?_, ?_⟩
  · rintro ⟨e, he⟩
    exact ((emitted_from_cstr_error_iff input.ident trimmed s e).mp he).1
  · intro hs
    exact ⟨err_msg input.ident,
      (emitted_from_cstr_error_iff input.ident trimmed s _).mpr ⟨hs, rfl⟩⟩
  · intro e he
    exact ((emitted_from_cstr_error_iff input.ident trimmed s e).mp he).2
  · simp [emitted_as_cstr, List.getElem?_eq_getElem hx]

/-- C6 (amended): when reverse-mapping generation is requested and every
variant's attributes parse, generation fails with `VariantHasFields` naming
the first variant whose field-kind is not unit (an empty named or tuple field
block counts, despite carrying zero fields), and succeeds when every variant
is a unit variant. -/
theorem claim_c6 (input : DeriveInput) (vs : List Variant) (w : Variant)
    (hd : input.data = .enum vs) (ha : check_enum_attrs input = .ok ())
    (hok : ∀ v ∈ vs, ∃ o, VariantMeta.from_attrs v.attrs = .ok o) :
    (vs.find? (fun v => !(v.fields == Fields.unit)) = some w →
        get_name_mapping input true = .error (.variantHasFields w.ident)) ∧
    ((∀ v ∈ vs, v.fields = Fields.unit) →
        ∃ r, get_name_mapping input true = .ok r) := by
  constructor
  · intro hw
    rw [get_name_mapping_eq input true vs ha hd]
    exact loop_true_fails vs w hok hw
  · intro hu
    rw [get_name_mapping_eq input true vs ha hd]
    exact loop_true_ok vs hu hok

/-- C6 counterexample: a variant declared with an empty named-field block
carries zero associated fields, yet the reverse derive rejects it with
`VariantHasFields`, contradicting the claim that every variant with zero
associated fields is accepted. -/
theorem claim_c6_counterexample :
    (Fields.named 0).num_fields = 0 ∧
    get_name_mapping ⟨"E", [], .enum [⟨"A", .named 0, []⟩]⟩ true
      = .error (.variantHasFields "A") := by
  decide

/-- C7 (amended): the schema-extraction stage first checks that no `cstr`
attribute is attached at the type level (failing with `MisplacedAttribute`)
and only then checks that the target is an enum (failing with
`NonEnumTarget`); hence a non-enum target that also carries a type-level
configuration attribute fails with `MisplacedAttribute`. -/
theorem claim_c7 (input : DeriveInput) (uv : Bool) :
    ((∃ a ∈ input.attrs, a.path = "cstr") →
        get_name_mapping input uv = .error .misplacedAttribute) ∧
    ((∀ a ∈ input.attrs, a.path ≠ "cstr") → (∀ vs, input.data ≠ .enum vs) →
        get_name_mapping input uv = .error .nonEnumTarget) := by
  constructor
  · intro hex
    have hc : input.attrs.any (fun a => a.path = "cstr") = true := by
      rw [List.any_eq_true]
      obtain ⟨a, ha, hp⟩ := hex
      exact ⟨a, ha, by simp [hp]⟩
    unfold get_name_mapping check_enum_attrs
    rw [if_pos hc]
  · intro hall hne
    have hc : ¬input.attrs.any (fun a => a.path = "cstr") = true := by
      rw [List.any_eq_true]
      rintro ⟨a, ha, hp⟩
      exact hall a ha (by simpa using hp)
    unfold get_name_mapping check_enum_attrs
    rw [if_neg hc]
    cases hd : input.data with
    | enum vs => exact absurd hd (hne vs)
    | structData => rfl
    | unionData => rfl

/-- C7 counterexample: a struct target carrying a type-level `cstr` attribute
fails with `MisplacedAttribute`, not with `NonEnumTarget` as claimed. -/
theorem claim_c7_counterexample :
    get_name_mapping ⟨"S", [⟨"cstr", Meta.otherMeta⟩], .structData⟩ false
      = .error .misplacedAttribute ∧
    get_name_mapping ⟨"S", [⟨"cstr", Meta.otherMeta⟩], .structData⟩ false
      ≠ .error .nonEnumTarget := by
  decide

/-- C8: a `name` override whose text contains an interior terminator byte
fails with `EmbeddedTerminatorByte` carrying the offending literal, and an
override text without interior terminator byte passes the check (storing the
text with exactly one terminator appended). -/
theorem claim_c8 (m : VariantMeta) (s : List Byte) (hm : m.name = none) :
    (0 ∈ s → m.parse_nv ⟨"name", .str s⟩ = .error (.embeddedTerminatorByte s)) ∧
    (0 ∉ s → m.parse_nv ⟨"name", .str s⟩ = .ok ⟨some (s ++ [0])⟩) := by
  constructor
  · intro hz
    have he : cstr_from_bytes_with_nul_is_err (s ++ [0]) = true :=
      (cstr_err_append s).mpr hz
    simp [VariantMeta.parse_nv, check_not_set, hm, he]
  · intro hz
    exact (parse_nv_ok_iff m _ ⟨"name", .str s⟩).mpr ⟨hm, rfl, s, rfl, hz, rfl⟩

/-- C9: on well-formed attributes, supplying `name` more than once on one
variant (within one block or across blocks) fails with `DuplicateArgument`,
supplying it at most once passes, and no cross-variant duplicate check is
performed: generation succeeds whenever each variant individually parses,
regardless of name collisions between variants. -/
theorem claim_c9 (attrs : List Attribute) (hwf : wf_attrs attrs) :
    (2 ≤ (supplied_names attrs).length →
        VariantMeta.from_attrs attrs = .error (.duplicateArgument "name")) ∧
    ((supplied_names attrs).length ≤ 1 →
        ∃ o, VariantMeta.from_attrs attrs = .ok o) ∧
    (∀ (input : DeriveInput) (vs : List Variant),
        input.data = .enum vs → check_enum_attrs input = .ok () →
        (∀ v ∈ vs, ∃ o, VariantMeta.from_attrs v.attrs = .ok o) →
        ∃ r, get_name_mapping input false = .ok r) := by
  obtain ⟨d, o⟩ := from_attrs_count attrs hwf
  refine ⟨d, o, ?_⟩
  intro input vs hd hc hok
  rw [get_name_mapping_eq input false vs hc hd]
  exact loop_false_ok vs hok

/-- C10: every byte string in the emitted forward table ends in exactly one
terminator byte and has no interior terminator byte (assuming the host
guarantee that variant identifiers are valid Rust identifiers), so the
unchecked `CStr` construction in the emitted code always receives a valid
nul-terminated byte sequence. -/
theorem claim_c10 (input : DeriveInput) (idents : List String)
    (vals : List (List Byte)) (vs : List Variant)
    (h : derive_ascstr_mapping input = .ok (idents, vals))
    (hd : input.data = .enum vs) (hids : ∀ v ∈ vs, valid_ident v.ident) :
    ∀ b ∈ vals, cstr_wf b := by
  obtain ⟨hc, vs', hd', hl⟩ := get_name_mapping_ok input false _ h
  rw [hd] at hd'
  injection hd' with hvv
  subst hvv
  intro b hb
  obtain ⟨i, hi⟩ := List.mem_iff_getElem?.mp hb
  obtain ⟨hlt, -⟩ := List.getElem?_eq_some.mp hi
  obtain ⟨-, hlen⟩ := loop_ok_shape false vs idents vals hl
  have hiv : i < vs.length := by omega
  have hv : vs[i]? = some (vs.get ⟨i, hiv⟩) := List.getElem?_eq_getElem hiv
  obtain ⟨opts, hopts, hbys⟩ := loop_ok_resolved false vs idents vals hl i _ hv
  rw [hi] at hbys
  injection hbys with hb'
  cases hon : opts.name with
  | some n =>
    have hwn := from_attrs_wf _ opts hopts n (by simp [hon])
    rw [hb', hon]
    simpa using hwn
  | none =>
    rw [hb', hon]
    constructor
    · simp [ident_to_byte_str_lit, List.getLast?_concat]
    · simp only [Option.getD_none, ident_to_byte_str_lit, List.dropLast_concat]
      exact valid_ident_no_nul _ (hids _ (List.get_mem vs i hiv))

/-- C3 counterexample: with two variants both renamed to `"pork"`, both
derivations succeed, yet applying the emitted reverse function to the forward
output of the second variant (terminator removed) yields the first variant,
refuting the unconditional round-trip claim. -/
theorem claim_c3_counterexample :
    derive_fromcstr_mapping dupNamesInput
      = .ok (["Apple", "Bacon"], [strBytes "pork", strBytes "pork"]) ∧
    derive_ascstr_mapping dupNamesInput
      = .ok (["Apple", "Bacon"], [strBytes "pork" ++ [0], strBytes "pork" ++ [0]]) ∧
    emitted_as_cstr [strBytes "pork" ++ [0], strBytes "pork" ++ [0]] ⟨1, []⟩
      = some (strBytes "pork" ++ [0]) ∧
    emitted_from_cstr dupNamesInput.ident [strBytes "pork", strBytes "pork"]
      ((strBytes "pork" ++ [0]).dropLast) = .ok 0 ∧
    (0 : Nat) ≠ 1 := by
  decide

/-- Witness for C1 at the documentation example, variant `Bacon` (tag 1) with
two different field payloads. -/
theorem claim_c1_witness :
    derive_ascstr_mapping sampleInput = .ok (sampleIdents, sampleVals) ∧
    (sampleVals.length = sampleVariants.length ∧
      emitted_as_cstr sampleVals ⟨1, [3]⟩ = emitted_as_cstr sampleVals ⟨1, [4, 5]⟩ ∧
      ∃ b, emitted_as_cstr sampleVals ⟨1, [3]⟩ = some b ∧ sampleVals[1]? = some b) :=
  ⟨by decide,
    claim_c1 sampleInput sampleIdents sampleVals sampleVariants 1 (by decide) rfl
      (by decide) [3] [4, 5]⟩

/-- Witness for C2 at the documentation example, variant `Bacon` (index 1),
whose resolved name is the override `"pork"` plus terminator. -/
theorem claim_c2_witness :
    get_name_mapping sampleInput false = .ok (sampleIdents, sampleVals) ∧
    sampleVals[1]? = some (spec_resolved_name
      ⟨"Bacon", .unit, [⟨"cstr", .list [.metaNV ⟨"name", .str (strBytes "pork")⟩]⟩]⟩) :=
  ⟨by decide,
    claim_c2 sampleInput false sampleIdents sampleVals sampleVariants 1
      ⟨"Bacon", .unit, [⟨"cstr", .list [.metaNV ⟨"name", .str (strBytes "pork")⟩]⟩]⟩
      (by decide) rfl (by decide)⟩

/-- Witness for C3 at the documentation example, variant `Cat` (tag 2): the
round trip returns tag 2. -/
theorem claim_c3_witness :
    derive_fromcstr_mapping sampleInput = .ok (sampleIdents, sampleTrimmed) ∧
    derive_ascstr_mapping sampleInput = .ok (sampleIdents, sampleVals) ∧
    sampleTrimmed.Nodup ∧
    emitted_as_cstr sampleVals ⟨2, []⟩ = some (strBytes "Cat" ++ [0]) ∧
    emitted_from_cstr sampleInput.ident sampleTrimmed
      ((strBytes "Cat" ++ [0]).dropLast) = .ok 2 :=
  ⟨by decide, by decide, by decide, by decide,
    claim_c3 sampleInput sampleIdents sampleIdents sampleTrimmed sampleVals 2 []
      (strBytes "Cat" ++ [0]) (by decide) (by decide) (by decide) (by decide)⟩

/-- Witness for C4 at the documentation example with input `"pork"` and
variant index 1. -/
theorem claim_c4_witness :
    derive_fromcstr_mapping sampleInput = .ok (sampleIdents, sampleTrimmed) ∧
    ((∃ vals, get_name_mapping sampleInput true = .ok (sampleIdents, vals) ∧
        sampleTrimmed = vals.map List.dropLast) ∧
     (emitted_from_cstr sampleInput.ident sampleTrimmed (strBytes "pork") = .ok 1 ↔
        sampleTrimmed[1]? = some (strBytes "pork") ∧
        ∀ l, l < 1 → sampleTrimmed[l]? ≠ some (strBytes "pork"))) :=
  ⟨by decide,
    claim_c4 sampleInput sampleIdents sampleTrimmed (strBytes "pork") 1 (by decide)⟩

/-- Witness for C5 at the documentation example with the unmatched input
`"unknown"` and the instance with tag 0. -/
theorem claim_c5_witness :
    derive_fromcstr_mapping sampleInput = .ok (sampleIdents, sampleTrimmed) ∧
    derive_ascstr_mapping sampleInput = .ok (sampleIdents, sampleVals) ∧
    (0 : Nat) < sampleVals.length ∧
    (((∃ e, emitted_from_cstr sampleInput.ident sampleTrimmed (strBytes "unknown")
          = .error e) ↔ strBytes "unknown" ∉ sampleTrimmed) ∧
     (∀ e, emitted_from_cstr sampleInput.ident sampleTrimmed (strBytes "unknown")
          = .error e → e = err_msg sampleInput.ident) ∧
     (emitted_as_cstr sampleVals ⟨0, []⟩).isSome = true) :=
  ⟨by decide, by decide, by decide,
    claim_c5 sampleInput sampleIdents sampleIdents sampleTrimmed sampleVals
      (strBytes "unknown") ⟨0, []⟩ (by decide) (by decide) (by decide)⟩

/-- Witness for C6: on `c6Input`, whose second variant has a named-field
block, the reverse derive fails naming `B`. -/
theorem claim_c6_witness :
    c6Input.data = .enum [⟨"A", .unit, []⟩, ⟨"B", .named 2, []⟩] ∧
    check_enum_attrs c6Input = .ok () ∧
    ([⟨"A", .unit, []⟩, ⟨"B", .named 2, []⟩] : List Variant).find?
        (fun v => !(v.fields == Fields.unit)) = some ⟨"B", .named 2, []⟩ ∧
    get_name_mapping c6Input true = .error (.variantHasFields "B") :=
  ⟨rfl, rfl, by decide,
    (claim_c6 c6Input [⟨"A", .unit, []⟩, ⟨"B", .named 2, []⟩] ⟨"B", .named 2, []⟩
      rfl rfl
      (by rintro v hv
          simp only [List.mem_cons, List.mem_singleton] at hv
          rcases hv with rfl | rfl | hv
          · exact ⟨{}, rfl⟩
          · exact ⟨{}, rfl⟩
          · simp at hv)).1 (by decide)⟩

/-- Witness for C7: a struct carrying a type-level `cstr` attribute fails with
`MisplacedAttribute`; a union without one fails with `NonEnumTarget`. -/
theorem claim_c7_witness :
    get_name_mapping ⟨"S", [⟨"cstr", Meta.otherMeta⟩], .structData⟩ true
      = .error .misplacedAttribute ∧
    get_name_mapping ⟨"T", [], .unionData⟩ false = .error .nonEnumTarget :=
  ⟨(claim_c7 ⟨"S", [⟨"cstr", Meta.otherMeta⟩], .structData⟩ true).1
      ⟨⟨"cstr", Meta.otherMeta⟩, by simp, rfl⟩,
   (claim_c7 ⟨"T", [], .unionData⟩ false).2 (by simp) (fun vs h => by simp at h)⟩

/-- Witness for C8 at the literal `"p\0rk"` (bytes 112, 0, 114, 107): its
interior terminator is rejected; the nul-free literal `"pork"` passes. -/
theorem claim_c8_witness :
    (VariantMeta.mk none).name = none ∧
    ((0 ∈ ([112, 0, 114, 107] : List Byte) →
        (VariantMeta.mk none).parse_nv ⟨"name", .str [112, 0, 114, 107]⟩
          = .error (.embeddedTerminatorByte [112, 0, 114, 107])) ∧
     (0 ∉ ([112, 0, 114, 107] : List Byte) →
        (VariantMeta.mk none).parse_nv ⟨"name", .str [112, 0, 114, 107]⟩
          = .ok ⟨some ([112, 0, 114, 107] ++ [0])⟩)) :=
  ⟨rfl, claim_c8 ⟨none⟩ [112, 0, 114, 107] rfl⟩

/-- Witness for C9 at an attribute block supplying `name` twice: parsing fails
with the duplicate diagnostic. -/
theorem claim_c9_witness :
    wf_attrs dupNameAttrs ∧
    ((2 ≤ (supplied_names dupNameAttrs).length →
        VariantMeta.from_attrs dupNameAttrs = .error (.duplicateArgument "name")) ∧
     ((supplied_names dupNameAttrs).length ≤ 1 →
        ∃ o, VariantMeta.from_attrs dupNameAttrs = .ok o) ∧
     (∀ (input : DeriveInput) (vs : List Variant),
        input.data = .enum vs → check_enum_attrs input = .ok () →
        (∀ v ∈ vs, ∃ o, VariantMeta.from_attrs v.attrs = .ok o) →
        ∃ r, get_name_mapping input false = .ok r)) :=
  have hwf : wf_attrs dupNameAttrs := by
    intro a ha
    simp only [dupNameAttrs, List.mem_singleton] at ha
    subst ha
    intro _
    refine ⟨_, rfl, ?_⟩
    intro x hx
    simp only [List.mem_cons, List.mem_singleton] at hx
    rcases hx with rfl | rfl | hx
    · exact ⟨_, rfl, rfl, [97], rfl, by decide⟩
    · exact ⟨_, rfl, rfl, [98], rfl, by decide⟩
    · simp at hx
  ⟨hwf, claim_c9 dupNameAttrs hwf⟩

/-- Witness for C10 at the documentation example: every table entry is a
well-formed nul-terminated byte string. -/
theorem claim_c10_witness :
    derive_ascstr_mapping sampleInput = .ok (sampleIdents, sampleVals) ∧
    (∀ v ∈ sampleVariants, valid_ident v.ident) ∧
    ∀ b ∈ sampleVals, cstr_wf b :=
  have hids : ∀ v ∈ sampleVariants, valid_ident v.ident := by
    intro v hv
    simp only [sampleVariants, List.mem_cons, List.mem_singleton] at hv
    rcases hv with rfl | rfl | rfl | hv
    · exact ⟨by decide, by decide⟩
    · exact ⟨by decide, by decide⟩
    · exact ⟨by decide, by decide⟩
    · simp at hv
  ⟨by decide, hids,
    claim_c10 sampleInput sampleIdents sampleVals sampleVariants (by decide) rfl
      hids⟩
